import Mathlib

/-!
Shallow embedding of the werun launcher's core: the fuzzy matcher
(`src/utils/fuzzy.rs`), the plugin manager / search orchestrator
(`src/core/plugin.rs`) and the search engine (`src/core/search.rs`).

Modelling conventions:
* Rust `&str` values that the fuzzy matcher walks character by character are
  modelled as `List Char`; `str::len` (bytes) coincides with `List.length`
  on the ASCII inputs the theorems below use, and `str::to_lowercase` is
  modelled character-wise by `Char.toLower`.
* `u32` arithmetic is modelled on `Nat` with explicit wrapping (`% 2^32`)
  exactly where the Rust code can overflow or underflow (release-mode
  wrapping semantics).
* The `(query.len() as f32 / target.len() as f32 * 20.0) as u32` bonus is
  modelled as the integer quotient `20 * len(query) / len(target)`; on every
  concrete input appearing in a theorem below the `f32` computation is exact
  and agrees with this quotient, and the general theorems use only the bound
  `bonus ≤ 20`, which holds for both semantics whenever `len(query) ≤
  len(target)`.
* Provider trait objects (`Arc<Mutex<dyn Plugin>>`) are modelled as records
  of their observable behaviour; `Mutex::lock` never fails in the
  single-threaded semantics embedded here (poisoning requires a panic).
* `anyhow::Result` is modelled as `Except String`.
* Calls that the orchestrator loops perform on providers are additionally
  recorded in an invocation trace (the second component of the `...T`
  functions), so that "never invokes" claims are statable.
-/

namespace Werun

/-- Models Rust `str::starts_with` on the character level (kernel-reducible,
unlike `String.startsWith`). -/
def strStartsWith (s pre : String) : Bool := pre.data.isPrefixOf s.data

/-- Models Rust `str::to_lowercase`, character-wise. -/
def toLowercase (s : List Char) : List Char := s.map Char.toLower

/-- Models Rust `str::contains(&str)`: `substringOf q t` is true iff `q`
occurs contiguously in `t`. -/
def substringOf : List Char → List Char → Bool
  | q, [] => q.isEmpty
  | q, c :: ts => q.isPrefixOf (c :: ts) || substringOf q ts

/-- The routing convention of §3 of the spec: the part of a result id before
the first `:` names the owning provider. -/
def ownerPrefixOf (s : String) : String :=
  String.mk (s.data.takeWhile (fun c => !(c == ':')))

/-! Data model, from `src/core/search.rs`. -/

/-- Result type tags (`enum ResultType`). -/
inductive ResultType where
  | Application
  | File
  | Folder
  | Command
  | Calculator
  | Clipboard
  | Settings
  | Custom (name : String)
deriving DecidableEq

/-- Action payloads (`enum ActionData`). -/
inductive ActionData where
  | LaunchApp (path : String) (args : List String)
  | OpenFile (path : String)
  | ExecuteCommand (command : String)
  | CopyToClipboard (text : String)
  | OpenUrl (url : String)
  | Custom (plugin : String) (data : String)
deriving DecidableEq

/-- One search result (`struct SearchResult`). The `u32` score is a `Nat`;
every score the embedded code produces is reduced mod `2^32`, and comparisons
used by the sort agree with `u32` comparisons on that range. -/
structure SearchResult where
  id : String
  title : String
  description : String
  icon : Option String
  result_type : ResultType
  score : Nat
  action : ActionData
deriving DecidableEq

/-- A registered provider: the observable behaviour of one
`Arc<Mutex<dyn Plugin>>` trait object (`trait Plugin`). `search` and
`execute` are the provider's own (arbitrary) implementations. -/
structure Plugin where
  id : String
  name : String
  description : String
  version : String
  enabled : Bool
  search : String → Nat → Except String (List SearchResult)
  execute : SearchResult → Except String Unit

/-! Fuzzy matcher, from `src/utils/fuzzy.rs`. -/

/-- One past the largest `u32`. -/
def U32 : Nat := 4294967296

/-- Wrapping `u32` subtraction `a.wrapping_sub(b)` for an accumulator
`a < 2^32` (release-mode semantics of Rust's `score -= x`). -/
def wrapSub (a b : Nat) : Nat := (a + U32 - b % U32) % U32

/-- The value of the cast `(x : i32) as u32` (two's complement reinterpret),
for `x` in `i32` range. -/
def i32AsU32 (x : Int) : Nat := (x % (U32 : Int)).toNat

/-- The accumulator of `calculate_contain_score` before the length penalty:
base 100, +50 when the target starts with the query, +30 when the query
follows a space. -/
def containBonus (query target : List Char) : Nat :=
  100 + (if query.isPrefixOf target then 50 else 0)
    + (if substringOf (' ' :: query) target then 30 else 0)

/-- The length penalty of `calculate_contain_score`:
`((target.len() as i32 - query.len() as i32) * 2) as u32`. -/
def containPenalty (query target : List Char) : Nat :=
  i32AsU32 (((target.length : Int) - (query.length : Int)) * 2)

/-- Models `calculate_contain_score`: the accumulated bonuses, then the
wrapping subtraction `score -= length_diff * 2`. Inputs are the
already-lowercased query and target. -/
def calculate_contain_score (query target : List Char) : Nat :=
  wrapSub (containBonus query target) (containPenalty query target)

/-- Models `fuzzy_char_match`: the greedy left-to-right scan that checks
whether every character of `query` appears in `target` in order. -/
def fuzzy_char_match : List Char → List Char → Bool
  | [], _ => true
  | _ :: _, [] => false
  | qc :: qs, tc :: ts =>
    if tc == qc then fuzzy_char_match qs ts else fuzzy_char_match (qc :: qs) ts

/-- Loop of `count_consecutive_matches`: walks the target, advancing through
the query on each match; a mismatch ends the current run. State: remaining
query, remaining target, current run, best run so far. -/
def ccmLoop : List Char → List Char → Nat → Nat → Nat
  | _, [], cur, best => max best cur
  | [], _ :: ts, cur, best => ccmLoop [] ts 0 (max best cur)
  | qc :: qs, tc :: ts, cur, best =>
    if tc == qc then ccmLoop qs ts (cur + 1) best
    else ccmLoop (qc :: qs) ts 0 (max best cur)

/-- Models `count_consecutive_matches`. -/
def count_consecutive_matches (query target : List Char) : Nat :=
  ccmLoop query target 0 0

/-- Models `find_first_match_position`: `target.find(first_char)
.unwrap_or(target.len())` (`List.findIdx` returns the length when the
character is absent). -/
def find_first_match_position (query target : List Char) : Nat :=
  match query with
  | [] => 0
  | c :: _ => target.findIdx (· == c)

/-- Models `calculate_fuzzy_score`: base 50, plus `10 × consecutive run`,
wrapping-minus `5 × first match position`, plus the length-ratio bonus
(see the header note on the `f32` model). -/
def calculate_fuzzy_score (query target : List Char) : Nat :=
  (wrapSub ((50 + 10 * count_consecutive_matches query target) % U32)
      (5 * find_first_match_position query target)
    + 20 * query.length / target.length) % U32

/-- Models `fuzzy_match`: lowercase both sides, then empty-query policy,
substring policy, subsequence fallback, failure. -/
def fuzzy_match (query target : List Char) : Bool × Nat :=
  if (toLowercase query).isEmpty then (true, 0)
  else if substringOf (toLowercase query) (toLowercase target) then
    (true, calculate_contain_score (toLowercase query) (toLowercase target))
  else if fuzzy_char_match (toLowercase query) (toLowercase target) then
    (true, calculate_fuzzy_score (toLowercase query) (toLowercase target))
  else (false, 0)

/-- Loop of `highlight_matches` over `target_lower.chars().zip(target
.chars())`, carrying the remaining lowercased query characters: a matched
target character is emitted as `[c]`, anything else passes through. -/
def hlLoop : List Char → List (Char × Char) → List Char
  | _, [] => []
  | [], (_, otc) :: rest => otc :: hlLoop [] rest
  | qc :: qs, (tc, otc) :: rest =>
    if tc == qc then '[' :: otc :: ']' :: hlLoop qs rest
    else otc :: hlLoop (qc :: qs) rest

/-- Models `highlight_matches`. -/
def highlight_matches (query target : List Char) : List Char :=
  if query.isEmpty then target
  else hlLoop (toLowercase query) ((toLowercase target).zip target)

/-- Removing every `[` and `]` character, the operation the round-trip
claim applies to the highlighter's output. -/
def stripBrackets (s : List Char) : List Char :=
  s.filter (fun c => !(c == '[') && !(c == ']'))

/-! Plugin manager, from `src/core/plugin.rs`. -/

/-- The fan-out loop of `PluginManager::search_all`: enabled providers are
queried in registration order, `Ok` results are appended, errors are logged
and contribute nothing. The second component records, in order, the ids of
the providers whose `search` the loop invoked. -/
def gatherT (plugins : List Plugin) (query : String) (limit : Nat) :
    List SearchResult × List String :=
  match plugins with
  | [] => ([], [])
  | p :: ps =>
    let rest := gatherT ps query limit
    if p.enabled then
      ((match p.search query limit with
        | Except.ok rs => rs
        | Except.error _ => []) ++ rest.1,
       p.id :: rest.2)
    else rest

/-- Concatenated per-provider results of the fan-out loop. -/
def gatherResults (plugins : List Plugin) (query : String) (limit : Nat) :
    List SearchResult :=
  (gatherT plugins query limit).1

/-- The comparator `|a, b| b.score.cmp(&a.score)` of the Rust sort, as the
boolean "a may come before b" relation of a stable merge sort. -/
def scoreLE (a b : SearchResult) : Bool := decide (b.score ≤ a.score)

/-- The stable descending-by-score sort (`Vec::sort_by` is stable). -/
def sortResults (rs : List SearchResult) : List SearchResult :=
  rs.mergeSort scoreLE

/-- Models `PluginManager::search_all`: gather, stable sort by score
descending, truncate to `limit`. Note the Rust body contains no empty-query
test. -/
def PluginManager.search_all (plugins : List Plugin) (query : String)
    (limit : Nat) : List SearchResult :=
  (sortResults (gatherResults plugins query limit)).take limit

/-- The ids of the providers whose `search` a `search_all` call invokes. -/
def PluginManager.search_all_invoked (plugins : List Plugin) (query : String)
    (limit : Nat) : List String :=
  (gatherT plugins query limit).2

/-- The error `anyhow!("未找到对应的插件")` ("no owning provider found"). -/
def noPluginError : String := "未找到对应的插件"

/-- The ownership test of `PluginManager::execute`: `result.id` starts with
`"<plugin_id>:"` or equals `plugin_id`. -/
def ownerMatches (p : Plugin) (r : SearchResult) : Bool :=
  strStartsWith r.id (p.id ++ ":") || r.id == p.id

/-- The routing loop of `PluginManager::execute`: the first provider that
owns the id executes the result; the second component records the index of
the provider whose `execute` was invoked, if any. -/
def PluginManager.executeT (plugins : List Plugin) (r : SearchResult) :
    Except String Unit × Option Nat :=
  match plugins with
  | [] => (Except.error noPluginError, none)
  | p :: ps =>
    if ownerMatches p r then (p.execute r, some 0)
    else
      let rest := PluginManager.executeT ps r
      (rest.1, rest.2.map (· + 1))

/-- Models `PluginManager::execute`. -/
def PluginManager.execute (plugins : List Plugin) (r : SearchResult) :
    Except String Unit :=
  (PluginManager.executeT plugins r).1

/-! Search engine, from `src/core/search.rs`. -/

/-- Models `struct SearchEngine` (a query and a limit). -/
structure SearchEngine where
  query : String
  limit : Nat

/-- The fan-out loop of `SearchEngine::search`: every plugin is queried (no
enabled test), errors are dropped. The second component is the invocation
trace. -/
def engineGatherT (plugins : List Plugin) (query : String) (limit : Nat) :
    List SearchResult × List String :=
  match plugins with
  | [] => ([], [])
  | p :: ps =>
    let rest := engineGatherT ps query limit
    ((match p.search query limit with
      | Except.ok rs => rs
      | Except.error _ => []) ++ rest.1,
     p.id :: rest.2)

/-- Models `SearchEngine::search` together with its invocation trace: an
empty query returns immediately, before the loop runs; otherwise every
plugin is searched and the results are sorted and truncated. -/
def SearchEngine.search (e : SearchEngine) (plugins : List Plugin) :
    List SearchResult × List String :=
  if e.query.isEmpty then ([], [])
  else
    let g := engineGatherT plugins e.query e.limit
    ((sortResults g.1).take e.limit, g.2)

/-! Concrete providers and results used by scenario theorems and witnesses. -/

/-- A result with only id and score of interest. -/
def mkResult (id : String) (score : Nat) : SearchResult :=
  ⟨id, "", "", none, ResultType.Application, score, ActionData.ExecuteCommand ""⟩

/-- A provider with the given id, enabled flag and behaviour. -/
def mkPlugin (id : String) (enabled : Bool)
    (searchFn : String → Nat → Except String (List SearchResult))
    (execFn : SearchResult → Except String Unit) : Plugin :=
  ⟨id, id, "", "0.1.0", enabled, searchFn, execFn⟩

/-- Score-100 result of provider `a`. -/
def raHundred : SearchResult := mkResult "a:1" 100

/-- Score-100 result of provider `b`. -/
def rbHundred : SearchResult := mkResult "b:1" 100

/-- Provider `a`, returning one score-100 result for every query. -/
def pA : Plugin := mkPlugin "a" true (fun _ _ => Except.ok [raHundred])
  (fun _ => Except.ok ())

/-- Provider `b`, returning one score-100 result for every query. -/
def pB : Plugin := mkPlugin "b" true (fun _ _ => Except.ok [rbHundred])
  (fun _ => Except.ok ())

/-- A result returned even for the empty query. -/
def rHit : SearchResult := mkResult "hit:1" 42

/-- An enabled provider that answers every query, the empty one included,
with `rHit` (legal under the provider contract: `fuzzy_match` makes the
empty query match everything with score 0). -/
def pHit : Plugin := mkPlugin "hit" true (fun _ _ => Except.ok [rHit])
  (fun _ => Except.ok ())

/-- The app-launcher provider of the routing scenario. -/
def pAppLauncher : Plugin := mkPlugin "app_launcher" true
  (fun _ _ => Except.ok []) (fun _ => Except.ok ())

/-- A result owned by `app_launcher`. -/
def rLaunch : SearchResult := mkResult "app_launcher:C:\\app.exe" 100

/-- A result owned by no registered provider. -/
def rUnknown : SearchResult := mkResult "unknown_provider:x" 100

/-- A disabled provider with id `a`. -/
def pDisabledA : Plugin := mkPlugin "a" false
  (fun _ _ => Except.ok [mkResult "a:real" 5]) (fun _ => Except.ok ())

/-- A result carrying provider `a`'s id prefix although produced by `b`. -/
def rForged : SearchResult := mkResult "a:x" 7

/-- An enabled provider with id `b` that mislabels its result with `a`'s
prefix (nothing in `search_all` prevents this). -/
def pForger : Plugin := mkPlugin "b" true (fun _ _ => Except.ok [rForged])
  (fun _ => Except.ok ())

/-- A result correctly labelled by provider `b`. -/
def rGood : SearchResult := mkResult "b:1" 9

/-- An enabled provider with id `b` that follows the §3 id convention. -/
def pWellB : Plugin := mkPlugin "b" true (fun _ _ => Except.ok [rGood])
  (fun _ => Except.ok ())

/-- First of two providers sharing the id `dup`; its execute succeeds. -/
def pDupFirst : Plugin := mkPlugin "dup" true (fun _ _ => Except.ok [])
  (fun _ => Except.ok ())

/-- Second provider with the id `dup`; its execute fails, so a call
reaching it is observable. -/
def pDupSecond : Plugin := mkPlugin "dup" true (fun _ _ => Except.ok [])
  (fun _ => Except.error "boom")

/-- A result owned by the duplicated id `dup`. -/
def rDup : SearchResult := mkResult "dup:1" 1

/-! Helper lemmas. -/

/-- The routing loop answers with the first owner: providers before it own
nothing, later providers (matching or not) are never consulted. -/
theorem executeT_first_match (ps₁ : List Plugin) (p : Plugin)
    (ps₂ : List Plugin) (r : SearchResult) (hp : ownerMatches p r = true)
    (h₁ : ∀ q ∈ ps₁, ownerMatches q r = false) :
    PluginManager.executeT (ps₁ ++ p :: ps₂) r = (p.execute r, some ps₁.length) := by
  induction ps₁ with
  | nil => simp [PluginManager.executeT, hp]
  | cons q qs ih =>
    have hq : ownerMatches q r = false := h₁ q (List.mem_cons_self q qs)
    have ih' := ih (fun x hx => h₁ x (List.mem_cons_of_mem q hx))
    simp [PluginManager.executeT, hq, ih']

/-- When no registered provider owns the result, the routing loop reaches
the end and produces the "no owning provider" error without invoking any
provider. -/
theorem executeT_no_match (ps : List Plugin) (r : SearchResult)
    (h : ∀ q ∈ ps, ownerMatches q r = false) :
    PluginManager.executeT ps r = (Except.error noPluginError, none) := by
  induction ps with
  | nil => simp [PluginManager.executeT]
  | cons q qs ih =>
    have hq : ownerMatches q r = false := h q (List.mem_cons_self q qs)
    have ih' := ih (fun x hx => h x (List.mem_cons_of_mem q hx))
    simp [PluginManager.executeT, hq, ih']

/-- The fan-out loop of `search_all` invokes exactly the enabled providers,
in registration order, whatever the query is. -/
theorem search_all_invoked_eq (ps : List Plugin) (q : String) (l : Nat) :
    PluginManager.search_all_invoked ps q l
      = (ps.filter (fun p => p.enabled)).map Plugin.id := by
  induction ps with
  | nil => rfl
  | cons p ps ih =>
    by_cases hp : p.enabled
    · simpa [PluginManager.search_all_invoked, gatherT, hp]
        using ih
    · simpa [PluginManager.search_all_invoked, gatherT, hp] using ih

/-- Every gathered result was returned, inside an `Ok`, by some enabled
registered provider. -/
theorem mem_gatherResults {ps : List Plugin} {q : String} {l : Nat}
    {r : SearchResult} (h : r ∈ gatherResults ps q l) :
    ∃ p ∈ ps, p.enabled = true ∧
      ∃ rs, p.search q l = Except.ok rs ∧ r ∈ rs := by
  induction ps with
  | nil => simp [gatherResults, gatherT] at h
  | cons p ps ih =>
    by_cases hp : p.enabled
    · rcases hrs : p.search q l with e | rs
      · rw [gatherResults, gatherT, if_pos hp, hrs] at h
        rcases ih h with ⟨p', hmem, hen, hw⟩
        exact ⟨p', List.mem_cons_of_mem p hmem, hen, hw⟩
      · rw [gatherResults, gatherT, if_pos hp, hrs] at h
        rcases List.mem_append.mp h with hin | hin
        · exact ⟨p, List.mem_cons_self p ps, hp, rs, hrs, hin⟩
        · rcases ih hin with ⟨p', hmem, hen, hw⟩
          exact ⟨p', List.mem_cons_of_mem p hmem, hen, hw⟩
    · rw [gatherResults, gatherT, if_neg hp] at h
      rcases ih h with ⟨p', hmem, hen, hw⟩
      exact ⟨p', List.mem_cons_of_mem p hmem, hen, hw⟩

/-- The sort comparator is transitive. -/
theorem scoreLE_trans : ∀ a b c : SearchResult,
    scoreLE a b → scoreLE b c → scoreLE a c := by
  intro a b c hab hbc
  simp only [scoreLE, decide_eq_true_eq] at *
  omega

/-- The sort comparator is total. -/
theorem scoreLE_total : ∀ a b : SearchResult, scoreLE a b || scoreLE b a := by
  intro a b
  simp only [scoreLE]
  by_cases h : b.score ≤ a.score
  · simp [h]
  · simp [Nat.le_of_lt (Nat.lt_of_not_le h)]

/-- The sorted result list is descending in score. -/
theorem sortResults_pairwise (rs : List SearchResult) :
    (sortResults rs).Pairwise (fun a b => b.score ≤ a.score) := by
  have h := List.sorted_mergeSort scoreLE_trans scoreLE_total rs
  exact h.imp (fun hab => by simpa [scoreLE] using hab)

/-- Stability of the sort: for each score value, the results carrying that
score come out of the sort exactly as they went in. -/
theorem sortResults_filter_score (rs : List SearchResult) (s : Nat) :
    (sortResults rs).filter (fun r => r.score == s)
      = rs.filter (fun r => r.score == s) := by
  have hperm : ((sortResults rs).filter (fun r => r.score == s)).Perm
      (rs.filter (fun r => r.score == s)) :=
    (List.mergeSort_perm rs scoreLE).filter _
  have hpw : (rs.filter (fun r => r.score == s)).Pairwise
      (fun a b => scoreLE a b) := by
    refine List.pairwise_of_forall_mem_list ?_
    intro a ha b hb
    have ha' : a.score = s := by simpa using (List.mem_filter.mp ha).2
    have hb' : b.score = s := by simpa using (List.mem_filter.mp hb).2
    simp [scoreLE, ha', hb']
  have hsub : (rs.filter (fun r => r.score == s)).Sublist (sortResults rs) :=
    List.sublist_mergeSort scoreLE_trans scoreLE_total hpw
      (List.filter_sublist rs)
  have hsub₂ : (rs.filter (fun r => r.score == s)).Sublist
      ((sortResults rs).filter (fun r => r.score == s)) := by
    have h := hsub.filter (fun r => r.score == s)
    rw [List.filter_filter] at h
    simpa only [Bool.and_self] using h
  exact ((hsub₂.eq_of_length (hperm.length_eq.symm)).symm)

/-- An initial segment is a prefix. -/
theorem take_isPrefix (n : Nat) (l : List SearchResult) : l.take n <+: l :=
  ⟨l.drop n, List.take_append_drop n l⟩

/-- A boolean prefix is no longer than its host. -/
theorem isPrefixOf_length : ∀ {q t : List Char},
    q.isPrefixOf t = true → q.length ≤ t.length := by
  intro q
  induction q with
  | nil => intro t _; exact Nat.zero_le _
  | cons a as ih =>
    intro t h
    cases t with
    | nil => simp [List.isPrefixOf] at h
    | cons b bs =>
      simp only [List.isPrefixOf, Bool.and_eq_true] at h
      simpa using Nat.succ_le_succ (ih h.2)

/-- A substring is no longer than its host. -/
theorem substringOf_length : ∀ {q t : List Char},
    substringOf q t = true → q.length ≤ t.length := by
  intro q t
  induction t with
  | nil =>
    intro h
    simp only [substringOf, List.isEmpty_iff] at h
    simp [h]
  | cons c ts ih =>
    intro h
    rcases Bool.or_eq_true_iff.mp h with h₁ | h₂
    · exact isPrefixOf_length h₁
    · exact Nat.le_succ_of_le (ih h₂)

/-- A greedily matched subsequence is no longer than its host. -/
theorem fuzzy_char_match_length : ∀ {t q : List Char},
    fuzzy_char_match q t = true → q.length ≤ t.length := by
  intro t
  induction t with
  | nil =>
    intro q h
    cases q with
    | nil => exact Nat.le_refl 0
    | cons qc qs => simp [fuzzy_char_match] at h
  | cons tc ts ih =>
    intro q h
    cases q with
    | nil => exact Nat.zero_le _
    | cons qc qs =>
      rw [fuzzy_char_match] at h
      by_cases he : (tc == qc) = true
      · rw [if_pos he] at h
        simpa using Nat.succ_le_succ (ih h)
      · rw [if_neg he] at h
        exact Nat.le_succ_of_le (ih h)

/-- The run counter can grow past its best-so-far by at most the remaining
query length. -/
theorem ccmLoop_le : ∀ (t q : List Char) (cur best : Nat),
    ccmLoop q t cur best ≤ max best (cur + q.length) := by
  intro t
  induction t with
  | nil =>
    intro q cur best
    cases q <;> (simp [ccmLoop]; try omega)
  | cons tc ts ih =>
    intro q cur best
    cases q with
    | nil =>
      rw [ccmLoop]
      have h := ih [] 0 (max best cur)
      simp at h ⊢
      omega
    | cons qc qs =>
      rw [ccmLoop]
      by_cases he : (tc == qc) = true
      · rw [if_pos he]
        have h := ih qs (cur + 1) best
        simp at h ⊢
        omega
      · rw [if_neg he]
        have h := ih (qc :: qs) 0 (max best cur)
        simp at h ⊢
        omega

/-- The longest consecutive run never exceeds the query length. -/
theorem count_consecutive_le (q t : List Char) :
    count_consecutive_matches q t ≤ q.length := by
  have h := ccmLoop_le t q 0 0
  simpa [count_consecutive_matches] using h

/-- When the greedy subsequence scan succeeds on a non-empty query, the
first matched character leaves room for the rest of the query. -/
theorem fcm_findIdx : ∀ {t : List Char} {qc : Char} {qs : List Char},
    fuzzy_char_match (qc :: qs) t = true →
    t.findIdx (· == qc) + (qs.length + 1) ≤ t.length := by
  intro t
  induction t with
  | nil => intro qc qs h; simp [fuzzy_char_match] at h
  | cons tc ts ih =>
    intro qc qs h
    rw [fuzzy_char_match] at h
    by_cases he : (tc == qc) = true
    · rw [if_pos he] at h
      rw [List.findIdx_cons, he]
      simpa using Nat.succ_le_succ (fuzzy_char_match_length h)
    · rw [if_neg he] at h
      rw [List.findIdx_cons, (by simpa using he : (tc == qc) = false)]
      have := ih h
      simp at this ⊢
      omega

/-- Wrapping subtraction is exact subtraction when it cannot underflow. -/
theorem wrapSub_eq {a b : Nat} (hb : b ≤ a) (ha : a < U32) :
    wrapSub a b = a - b := by
  unfold wrapSub U32 at *
  omega

/-- The `i32`-to-`u32` cast of twice the length surplus is exact when the
target is at least as long as the query. -/
theorem containPenalty_eq {q t : List Char} (hle : q.length ≤ t.length)
    (hsm : (t.length - q.length) * 2 < U32) :
    containPenalty q t = (t.length - q.length) * 2 := by
  unfold containPenalty i32AsU32 U32 at *
  omega

/-- The contain-score accumulator lies between 100 and 180. -/
theorem containBonus_bounds (q t : List Char) :
    100 ≤ containBonus q t ∧ containBonus q t ≤ 180 := by
  unfold containBonus
  split_ifs <;> omega

/-- The contain score is the exact bonus-minus-penalty value whenever the
penalty does not exceed the accumulated bonus. -/
theorem calculate_contain_score_eq {q t : List Char}
    (hle : q.length ≤ t.length)
    (hsm : (t.length - q.length) * 2 ≤ containBonus q t) :
    calculate_contain_score q t
      = containBonus q t - (t.length - q.length) * 2 := by
  have hb := containBonus_bounds q t
  have hpen : containPenalty q t = (t.length - q.length) * 2 :=
    containPenalty_eq hle (by unfold U32; omega)
  rw [calculate_contain_score, hpen]
  exact wrapSub_eq hsm (by unfold U32; omega)

/-- The fuzzy score is the exact base-plus-bonuses-minus-penalty value
whenever the position penalty does not exceed the accumulated score (the
query-length bound keeps the consecutive bonus inside `u32`). -/
theorem calculate_fuzzy_score_eq {q t : List Char} (hlen : q.length ≤ 1000)
    (hpos : 5 * find_first_match_position q t
      ≤ 50 + 10 * count_consecutive_matches q t) :
    calculate_fuzzy_score q t
      = 50 + 10 * count_consecutive_matches q t
        - 5 * find_first_match_position q t + 20 * q.length / t.length := by
  have hcc : count_consecutive_matches q t ≤ q.length :=
    count_consecutive_le q t
  have hratio : 20 * q.length / t.length ≤ 20 * q.length :=
    Nat.div_le_self _ _
  have e₁ : (50 + 10 * count_consecutive_matches q t) % U32
      = 50 + 10 * count_consecutive_matches q t :=
    Nat.mod_eq_of_lt (by unfold U32; omega)
  rw [calculate_fuzzy_score, e₁,
    wrapSub_eq hpos (by unfold U32; omega)]
  exact Nat.mod_eq_of_lt (by unfold U32; omega)

/-- Lowercasing keeps the character count. -/
theorem toLowercase_length (s : List Char) :
    (toLowercase s).length = s.length := by
  simp [toLowercase]

/-- Lowercasing a non-empty string is non-empty. -/
theorem toLowercase_isEmpty {q : List Char} (h : q ≠ []) :
    (toLowercase q).isEmpty = false := by
  cases q with
  | nil => exact absurd rfl h
  | cons c cs => rfl

/-- The substring branch of `fuzzy_match`. -/
theorem fuzzy_match_contain {q t : List Char} (hq : q ≠ [])
    (hsub : substringOf (toLowercase q) (toLowercase t) = true) :
    fuzzy_match q t
      = (true, calculate_contain_score (toLowercase q) (toLowercase t)) := by
  rw [fuzzy_match, toLowercase_isEmpty hq]
  simp [hsub]

/-- The subsequence branch of `fuzzy_match`. -/
theorem fuzzy_match_fuzzy {q t : List Char} (hq : q ≠ [])
    (hnsub : substringOf (toLowercase q) (toLowercase t) = false)
    (hfcm : fuzzy_char_match (toLowercase q) (toLowercase t) = true) :
    fuzzy_match q t
      = (true, calculate_fuzzy_score (toLowercase q) (toLowercase t)) := by
  rw [fuzzy_match, toLowercase_isEmpty hq]
  simp [hnsub, hfcm]

/-- A leading `[` is dropped by the bracket strip. -/
theorem stripBrackets_open (l : List Char) :
    stripBrackets ('[' :: l) = stripBrackets l := rfl

/-- A leading `]` is dropped by the bracket strip. -/
theorem stripBrackets_close (l : List Char) :
    stripBrackets (']' :: l) = stripBrackets l := rfl

/-- A non-bracket character survives the bracket strip. -/
theorem stripBrackets_keep {c : Char} (h1 : c ≠ '[') (h2 : c ≠ ']')
    (l : List Char) : stripBrackets (c :: l) = c :: stripBrackets l := by
  have hp : (!(c == '[') && !(c == ']')) = true := by
    simp only [Bool.and_eq_true, Bool.not_eq_true']
    exact ⟨beq_eq_false_iff_ne.mpr h1, beq_eq_false_iff_ne.mpr h2⟩
  simp [stripBrackets, List.filter_cons, hp]

/-- Stripping the brackets the highlight loop adds recovers exactly the
original characters it consumed, as long as none of them is a bracket. -/
theorem hlLoop_strip : ∀ (pairs : List (Char × Char)) (qs : List Char),
    (∀ pr ∈ pairs, pr.2 ≠ '[' ∧ pr.2 ≠ ']') →
    stripBrackets (hlLoop qs pairs) = pairs.map Prod.snd := by
  intro pairs
  induction pairs with
  | nil =>
    intro qs _
    cases qs <;> rfl
  | cons pr rest ih =>
    intro qs h
    obtain ⟨tc, otc⟩ := pr
    have hot : otc ≠ '[' ∧ otc ≠ ']' := h (tc, otc) (List.mem_cons_self _ _)
    have hrest := fun x hx => h x (List.mem_cons_of_mem _ hx)
    cases qs with
    | nil =>
      rw [hlLoop, stripBrackets_keep hot.1 hot.2, ih [] hrest]
      rfl
    | cons qc qs' =>
      by_cases he : (tc == qc) = true
      · rw [hlLoop, if_pos he, stripBrackets_open,
          stripBrackets_keep hot.1 hot.2, stripBrackets_close,
          ih qs' hrest]
        rfl
      · rw [hlLoop, if_neg he, stripBrackets_keep hot.1 hot.2,
          ih (qc :: qs') hrest]
        rfl

/-! Claim theorems. -/

/-- C1, counterexample: `PluginManager::search_all` has no empty-query
short-circuit. With one enabled provider that answers the empty query, the
empty-query search returns a non-empty list, and the provider's `search` is
invoked. -/
theorem claim1_counterexample :
    PluginManager.search_all [pHit] "" 5 = [rHit] ∧
    PluginManager.search_all_invoked [pHit] "" 5 = ["hit"] := by
  constructor
  · have hg : gatherResults [pHit] "" 5 = [rHit] := rfl
    show (sortResults (gatherResults [pHit] "" 5)).take 5 = [rHit]
    rw [hg, sortResults, List.mergeSort_singleton]
    rfl
  · rfl

/-- C1, amended: the empty-query short-circuit lives in
`SearchEngine::search`, which returns an empty list without invoking any
provider; `PluginManager::search_all` performs no such check and invokes
every enabled provider's `search` even for the empty query. -/
theorem claim1_empty_query_short_circuit :
    (∀ (e : SearchEngine) (ps : List Plugin), e.query = "" →
        SearchEngine.search e ps = ([], [])) ∧
    (∀ (ps : List Plugin) (l : Nat),
        PluginManager.search_all_invoked ps "" l
          = (ps.filter (fun p => p.enabled)).map Plugin.id) := by
  constructor
  · intro e ps he
    have hempty : ("" : String).isEmpty = true := rfl
    simp [SearchEngine.search, he, hempty]
  · intro ps l
    exact search_all_invoked_eq ps "" l

/-- C1, witness for the amended theorem at a concrete engine and provider. -/
theorem claim1_witness :
    SearchEngine.search ⟨"", 5⟩ [pHit] = ([], []) :=
  claim1_empty_query_short_circuit.1 ⟨"", 5⟩ [pHit] rfl

/-- C2: `search_all` output is sorted by score descending; the sort is
stable, so for each score value the output's results of that score are an
initial segment of the gathered (registration-ordered) results of that
score; in the two-provider scenario with equal scores, provider `a`'s
result precedes provider `b`'s. -/
theorem claim2_sorted_stable :
    (∀ (ps : List Plugin) (q : String) (l : Nat),
        (PluginManager.search_all ps q l).Pairwise
          (fun a b => b.score ≤ a.score)) ∧
    (∀ (ps : List Plugin) (q : String) (l s : Nat),
        ((PluginManager.search_all ps q l).filter (fun r => r.score == s)) <+:
          ((gatherResults ps q l).filter (fun r => r.score == s))) ∧
    PluginManager.search_all [pA, pB] "x" 10 = [raHundred, rbHundred] := by
  refine ⟨?_, ?_, ?_⟩
  · intro ps q l
    exact List.Pairwise.sublist (List.take_sublist l _) (sortResults_pairwise _)
  · intro ps q l s
    have h := List.IsPrefix.filter (fun r => r.score == s)
      (take_isPrefix l (sortResults (gatherResults ps q l)))
    rwa [sortResults_filter_score] at h
  · have hg : gatherResults [pA, pB] "x" 10 = [raHundred, rbHundred] := rfl
    show (sortResults (gatherResults [pA, pB] "x" 10)).take 10 = _
    rw [hg, sortResults, List.mergeSort_of_sorted (by decide)]
    rfl

/-- C3: `execute` delegates to a registered provider owning the result's id
(`id` starts with `"<provider_id>:"` or equals the provider id) and returns
that provider's outcome unchanged; when no provider owns the id it returns
the "no owning provider" error. -/
theorem claim3_execute_routing :
    (∀ (ps₁ : List Plugin) (p : Plugin) (ps₂ : List Plugin) (r : SearchResult),
        ownerMatches p r = true → (∀ q ∈ ps₁, ownerMatches q r = false) →
        PluginManager.execute (ps₁ ++ p :: ps₂) r = p.execute r) ∧
    (∀ (ps : List Plugin) (r : SearchResult),
        (∀ q ∈ ps, ownerMatches q r = false) →
        PluginManager.execute ps r = Except.error noPluginError) := by
  constructor
  · intro ps₁ p ps₂ r hp h₁
    simp [PluginManager.execute, executeT_first_match ps₁ p ps₂ r hp h₁]
  · intro ps r h
    simp [PluginManager.execute, executeT_no_match ps r h]

/-- C3, witness: `"app_launcher:C:\app.exe"` routes to the registered
`app_launcher` provider, `"unknown_provider:x"` yields the error. -/
theorem claim3_witness :
    ownerMatches pAppLauncher rLaunch = true ∧
    PluginManager.execute [pAppLauncher] rLaunch
      = pAppLauncher.execute rLaunch ∧
    PluginManager.execute [pAppLauncher] rUnknown
      = Except.error noPluginError :=
  ⟨by decide,
   claim3_execute_routing.1 [] pAppLauncher [] rLaunch (by decide)
     (by simp),
   claim3_execute_routing.2 [pAppLauncher] rUnknown (by decide)⟩

/-- C8, counterexample: a disabled provider's `search` is indeed never
invoked, but nothing stops an enabled provider from returning a result
carrying the disabled provider's `"<provider_id>:"` prefix, so such a
result can appear in `search_all` output. -/
theorem claim8_counterexample :
    pDisabledA.enabled = false ∧
    PluginManager.search_all [pDisabledA, pForger] "q" 5 = [rForged] ∧
    strStartsWith rForged.id (pDisabledA.id ++ ":") = true ∧
    ownerPrefixOf rForged.id = pDisabledA.id := by
  refine ⟨rfl, ?_, by decide, by decide⟩
  have hg : gatherResults [pDisabledA, pForger] "q" 5 = [rForged] := rfl
  show (sortResults (gatherResults [pDisabledA, pForger] "q" 5)).take 5 = _
  rw [hg, sortResults, List.mergeSort_singleton]
  rfl

/-- C8, amended: `search_all` invokes exactly the enabled providers'
`search`; and provided every enabled provider labels its `Ok` results with
its own id as the before-the-colon prefix (the §3 invariant) and no enabled
provider shares the disabled provider's id, no result owned by the disabled
provider's id appears in the output. -/
theorem claim8_disabled_provider :
    (∀ (ps : List Plugin) (q : String) (l : Nat),
        PluginManager.search_all_invoked ps q l
          = (ps.filter (fun p => p.enabled)).map Plugin.id) ∧
    (∀ (ps : List Plugin) (q : String) (l : Nat) (p : Plugin),
        p.enabled = false →
        (∀ p' ∈ ps, p'.enabled = true → ∀ rs, p'.search q l = Except.ok rs →
            ∀ r ∈ rs, ownerPrefixOf r.id = p'.id) →
        (∀ p' ∈ ps, p'.enabled = true → p'.id ≠ p.id) →
        ∀ r ∈ PluginManager.search_all ps q l, ownerPrefixOf r.id ≠ p.id) := by
  constructor
  · exact search_all_invoked_eq
  · intro ps q l p _ hconv huniq r hr
    have hr₁ : r ∈ sortResults (gatherResults ps q l) :=
      (List.take_sublist l _).subset hr
    have hr₂ : r ∈ gatherResults ps q l := by
      rw [sortResults] at hr₁
      exact List.mem_mergeSort.mp hr₁
    rcases mem_gatherResults hr₂ with ⟨p', hmem, hen, rs, hok, hrs⟩
    rw [hconv p' hmem hen rs hok r hrs]
    exact huniq p' hmem hen

/-- C8, witness: with disabled `a` and well-behaved enabled `b`, the result
`b` returns is in the output and is not owned by `a`. -/
theorem claim8_witness :
    pDisabledA.enabled = false ∧ ownerPrefixOf rGood.id ≠ pDisabledA.id := by
  refine ⟨rfl, ?_⟩
  have hmem : rGood ∈ PluginManager.search_all [pDisabledA, pWellB] "q" 5 := by
    have hg : gatherResults [pDisabledA, pWellB] "q" 5 = [rGood] := rfl
    show rGood ∈ (sortResults (gatherResults [pDisabledA, pWellB] "q" 5)).take 5
    rw [hg, sortResults, List.mergeSort_singleton]
    simp
  refine claim8_disabled_provider.2 [pDisabledA, pWellB] "q" 5 pDisabledA rfl
    ?_ ?_ rGood hmem
  · intro p' hp' hen rs hok r hrmem
    rcases List.mem_cons.mp hp' with h | h
    · subst h
      exact absurd hen (by decide)
    · have h' := List.mem_singleton.mp h
      subst h'
      injection hok with h₂
      subst h₂
      have : r = rGood := List.mem_singleton.mp hrmem
      subst this
      decide
  · intro p' hp' hen
    rcases List.mem_cons.mp hp' with h | h
    · subst h
      exact absurd hen (by decide)
    · have h' := List.mem_singleton.mp h
      subst h'
      decide

/-- C9: `search_all` returns at most `limit` results. -/
theorem claim9_search_all_limit (ps : List Plugin) (q : String) (l : Nat) :
    (PluginManager.search_all ps q l).length ≤ l :=
  List.length_take_le l (sortResults (gatherResults ps q l))

/-- C10: with several providers owning a result's id (possible since
`register` enforces no id uniqueness), `execute` invokes exactly the first
owner in registration order — the invocation index is the first owner's
position and the outcome is its outcome, whatever any later owner would
do. -/
theorem claim10_execute_first_owner (ps₁ : List Plugin) (p : Plugin)
    (ps₂ : List Plugin) (p' : Plugin) (ps₃ : List Plugin) (r : SearchResult)
    (hp : ownerMatches p r = true) (_hp' : ownerMatches p' r = true)
    (h₁ : ∀ q ∈ ps₁, ownerMatches q r = false) :
    PluginManager.executeT (ps₁ ++ p :: (ps₂ ++ p' :: ps₃)) r
      = (p.execute r, some ps₁.length) :=
  executeT_first_match ps₁ p (ps₂ ++ p' :: ps₃) r hp h₁

/-- C4, counterexample: when the target itself contains brackets, stripping
all brackets from the highlighted output also removes the target's own
brackets, so the round trip fails. -/
theorem claim4_counterexample :
    stripBrackets (highlight_matches "a".data "[a]".data) ≠ "[a]".data := by
  decide

/-- C4, amended: for every query and every target containing no `[` and no
`]` character, removing all brackets from `highlight_matches` output yields
the target exactly. -/
theorem claim4_round_trip (q t : List Char) (h1 : '[' ∉ t) (h2 : ']' ∉ t) :
    stripBrackets (highlight_matches q t) = t := by
  by_cases hq : q.isEmpty
  · rw [highlight_matches, if_pos hq]
    refine List.filter_eq_self.mpr ?_
    intro c hc
    simp only [Bool.and_eq_true, Bool.not_eq_true']
    exact ⟨beq_eq_false_iff_ne.mpr (fun e => h1 (e ▸ hc)),
      beq_eq_false_iff_ne.mpr (fun e => h2 (e ▸ hc))⟩
  · rw [highlight_matches, if_neg hq]
    rw [hlLoop_strip _ _ (fun pr hpr => ?_)]
    · exact List.map_snd_zip _ _ (by simp [toLowercase_length])
    · obtain ⟨a, b⟩ := pr
      have hb := (List.of_mem_zip hpr).2
      exact ⟨fun e => h1 (e ▸ hb), fun e => h2 (e ▸ hb)⟩

/-- C4, witness: the round trip at a concrete bracket-free pair. -/
theorem claim4_witness :
    '[' ∉ "Google Chrome".data ∧ ']' ∉ "Google Chrome".data ∧
    stripBrackets (highlight_matches "gc".data "Google Chrome".data)
      = "Google Chrome".data :=
  ⟨by decide, by decide,
   claim4_round_trip "gc".data "Google Chrome".data (by decide) (by decide)⟩

/-- C5, counterexample: on the substring path the penalty `2 × (len(target)
− len(query))` can exceed the accumulated bonus, so the unsigned subtraction
underflows (target: 52 `b`s then `a`, query `a`: bonus 100, penalty 104;
the wrapped score is `2^32 − 4`). -/
theorem claim5_counterexample :
    substringOf (toLowercase "a".data)
      (toLowercase "bbbbbbbbbbbbbbbbbbbbbbbbbbbbbbbbbbbbbbbbbbbbbbbbbbbba".data)
      = true ∧
    containBonus (toLowercase "a".data)
      (toLowercase "bbbbbbbbbbbbbbbbbbbbbbbbbbbbbbbbbbbbbbbbbbbbbbbbbbbba".data)
      < ((toLowercase "bbbbbbbbbbbbbbbbbbbbbbbbbbbbbbbbbbbbbbbbbbbbbbbbbbbba".data).length
          - (toLowercase "a".data).length) * 2 ∧
    (fuzzy_match "a".data
      "bbbbbbbbbbbbbbbbbbbbbbbbbbbbbbbbbbbbbbbbbbbbbbbbbbbba".data).2
      = 4294967292 := by
  refine ⟨by decide, by decide, by decide⟩

/-- C5, amended: the score computations are exact (no unsigned underflow)
provided the target is at most 50 characters longer than the query on the
substring path, and, on the subsequence path, the first matched character
lies within the first 10 positions (with a query of reasonable length). -/
theorem claim5_no_underflow :
    (∀ q t : List Char, q.length ≤ t.length → t.length ≤ q.length + 50 →
        (t.length - q.length) * 2 ≤ containBonus q t ∧
        (calculate_contain_score q t : Int)
          = (containBonus q t : Int)
            - ((t.length : Int) - (q.length : Int)) * 2) ∧
    (∀ q t : List Char, fuzzy_char_match q t = true → q ≠ [] →
        q.length ≤ 1000 → find_first_match_position q t ≤ 10 →
        (calculate_fuzzy_score q t : Int)
          = 50 + 10 * (count_consecutive_matches q t : Int)
            - 5 * (find_first_match_position q t : Int)
            + (20 * q.length / t.length : Nat)) := by
  constructor
  · intro q t h1 h2
    have hb := containBonus_bounds q t
    have hpen : (t.length - q.length) * 2 ≤ containBonus q t := by omega
    refine ⟨hpen, ?_⟩
    rw [calculate_contain_score_eq h1 hpen]
    omega
  · intro q t hfcm hne hlen hpos
    have hposb : 5 * find_first_match_position q t
        ≤ 50 + 10 * count_consecutive_matches q t := by omega
    rw [calculate_fuzzy_score_eq hlen hposb]
    have hd : 5 * find_first_match_position q t
        ≤ 50 + 10 * count_consecutive_matches q t := hposb
    omega

/-- C5, witness: both exactness statements at the spec's own scenarios
(`"chrome"`/`"Google Chrome"` on the substring path, `"gc"`/`"Google
Chrome"` on the subsequence path). -/
theorem claim5_witness :
    (calculate_contain_score (toLowercase "chrome".data)
        (toLowercase "Google Chrome".data) : Int)
      = (containBonus (toLowercase "chrome".data)
          (toLowercase "Google Chrome".data) : Int)
        - (((toLowercase "Google Chrome".data).length : Int)
          - ((toLowercase "chrome".data).length : Int)) * 2 ∧
    (calculate_fuzzy_score (toLowercase "gc".data)
        (toLowercase "Google Chrome".data) : Int)
      = 50 + 10 * (count_consecutive_matches (toLowercase "gc".data)
            (toLowercase "Google Chrome".data) : Int)
        - 5 * (find_first_match_position (toLowercase "gc".data)
            (toLowercase "Google Chrome".data) : Int)
        + (20 * (toLowercase "gc".data).length
            / (toLowercase "Google Chrome".data).length : Nat) :=
  ⟨(claim5_no_underflow.1 (toLowercase "chrome".data)
      (toLowercase "Google Chrome".data) (by decide) (by decide)).2,
   claim5_no_underflow.2 (toLowercase "gc".data)
     (toLowercase "Google Chrome".data) (by decide) (by decide) (by decide)
     (by decide)⟩

/-- C6, counterexample: two targets of equal length 20; the first contains
the query `abcde` verbatim (score 70), the second matches it only as a
subsequence, yet its long consecutive run scores it 95 — the subsequence
target strictly outranks the substring target. -/
theorem claim6_counterexample :
    "xxabcdexxxxxxxxxxxxx".data.length = "abcdxexxxxxxxxxxxxxx".data.length ∧
    substringOf (toLowercase "abcde".data)
      (toLowercase "xxabcdexxxxxxxxxxxxx".data) = true ∧
    substringOf (toLowercase "abcde".data)
      (toLowercase "abcdxexxxxxxxxxxxxxx".data) = false ∧
    fuzzy_char_match (toLowercase "abcde".data)
      (toLowercase "abcdxexxxxxxxxxxxxxx".data) = true ∧
    fuzzy_match "abcde".data "xxabcdexxxxxxxxxxxxx".data = (true, 70) ∧
    fuzzy_match "abcde".data "abcdxexxxxxxxxxxxxxx".data = (true, 95) := by
  refine ⟨by decide, by decide, by decide, by decide, by decide, by decide⟩

/-- C6, amended: a substring match strictly outranks a subsequence match of
an equal-length target provided the inputs are small enough that the
substring length penalty and the subsequence run bonus cannot close the
50-point base gap: `2·len(target) + 8·len(query) < 30`. -/
theorem claim6_substring_outranks (q t₁ t₂ : List Char) (hne : q ≠ [])
    (hlen : t₁.length = t₂.length)
    (hsub : substringOf (toLowercase q) (toLowercase t₁) = true)
    (hnsub : substringOf (toLowercase q) (toLowercase t₂) = false)
    (hseq : fuzzy_char_match (toLowercase q) (toLowercase t₂) = true)
    (hsmall : 2 * t₁.length + 8 * q.length < 30) :
    (fuzzy_match q t₂).2 < (fuzzy_match q t₁).2 := by
  have hql : (toLowercase q).length = q.length := toLowercase_length q
  have htl₁ : (toLowercase t₁).length = t₁.length := toLowercase_length t₁
  have htl₂ : (toLowercase t₂).length = t₂.length := toLowercase_length t₂
  have hl1 : 0 < q.length := List.length_pos.mpr hne
  have h₁ := fuzzy_match_contain hne hsub
  have hle₁ : (toLowercase q).length ≤ (toLowercase t₁).length :=
    substringOf_length hsub
  have hb := containBonus_bounds (toLowercase q) (toLowercase t₁)
  have hsm₁ : ((toLowercase t₁).length - (toLowercase q).length) * 2
      ≤ containBonus (toLowercase q) (toLowercase t₁) := by omega
  have hs₁ := calculate_contain_score_eq hle₁ hsm₁
  have h₂ := fuzzy_match_fuzzy hne hnsub hseq
  have hle₂ : (toLowercase q).length ≤ (toLowercase t₂).length :=
    fuzzy_char_match_length hseq
  obtain ⟨qc, qs', hqe⟩ : ∃ qc qs', toLowercase q = qc :: qs' := by
    cases hc : toLowercase q with
    | nil =>
      rw [hc] at hql
      simp only [List.length_nil] at hql
      omega
    | cons a b => exact ⟨a, b, rfl⟩
  have hpos : find_first_match_position (toLowercase q) (toLowercase t₂)
      + (toLowercase q).length ≤ (toLowercase t₂).length := by
    rw [hqe] at hseq ⊢
    have hf := fcm_findIdx hseq
    simpa [find_first_match_position] using hf
  have hcc : count_consecutive_matches (toLowercase q) (toLowercase t₂)
      ≤ (toLowercase q).length := count_consecutive_le _ _
  have hposb : 5 * find_first_match_position (toLowercase q) (toLowercase t₂)
      ≤ 50 + 10 * count_consecutive_matches (toLowercase q)
          (toLowercase t₂) := by omega
  have hs₂ := calculate_fuzzy_score_eq (q := toLowercase q)
    (t := toLowercase t₂) (by omega) hposb
  have hLpos : 0 < (toLowercase t₂).length := by omega
  have hratio : 20 * (toLowercase q).length / (toLowercase t₂).length
      ≤ 20 := by
    have h20 : 20 * (toLowercase q).length
        ≤ 20 * (toLowercase t₂).length := by omega
    have hdiv : 20 * (toLowercase q).length / (toLowercase t₂).length
        ≤ 20 * (toLowercase t₂).length / (toLowercase t₂).length :=
      Nat.div_le_div_right h20
    rwa [Nat.mul_div_cancel 20 hLpos] at hdiv
  rw [h₁, h₂]
  show calculate_fuzzy_score (toLowercase q) (toLowercase t₂)
      < calculate_contain_score (toLowercase q) (toLowercase t₁)
  rw [hs₁, hs₂]
  generalize hgen : 20 * (toLowercase q).length / (toLowercase t₂).length
    = rt at hratio ⊢
  clear hgen hs₁ hs₂ h₁ h₂
  omega

/-- C6, witness: query `ab`, substring target `bbbbab` (score 92) versus
subsequence target `axxxxb` (score 66), both of length 6. -/
theorem claim6_witness :
    fuzzy_match "ab".data "bbbbab".data = (true, 92) ∧
    fuzzy_match "ab".data "axxxxb".data = (true, 66) ∧
    (fuzzy_match "ab".data "axxxxb".data).2
      < (fuzzy_match "ab".data "bbbbab".data).2 :=
  ⟨by decide, by decide,
   claim6_substring_outranks "ab".data "bbbbab".data "axxxxb".data
     (by decide) (by decide) (by decide) (by decide) (by decide) (by decide)⟩

/-- C7, counterexample: the unconditional formula fails once the length
penalty underflows — for query `x` and a 53-character target the formula's
value is negative while the returned `u32` score is the wrapped `2^32 −
4`. -/
theorem claim7_counterexample :
    substringOf (toLowercase "x".data)
      (toLowercase "yyyyyyyyyyyyyyyyyyyyyyyyyyyyyyyyyyyyyyyyyyyyyyyyyyyyx".data)
      = true ∧
    fuzzy_match "x".data
      "yyyyyyyyyyyyyyyyyyyyyyyyyyyyyyyyyyyyyyyyyyyyyyyyyyyyx".data
      = (true, 4294967292) ∧
    ((4294967292 : Int)
      ≠ (containBonus (toLowercase "x".data)
          (toLowercase
            "yyyyyyyyyyyyyyyyyyyyyyyyyyyyyyyyyyyyyyyyyyyyyyyyyyyyx".data) : Int)
        - (((toLowercase
            "yyyyyyyyyyyyyyyyyyyyyyyyyyyyyyyyyyyyyyyyyyyyyyyyyyyyx".data).length : Int)
          - ((toLowercase "x".data).length : Int)) * 2) := by
  refine ⟨by decide, by decide, by decide⟩

/-- C7, amended: for every non-empty query whose case-folded form the
case-folded target contains verbatim, and whose length penalty does not
exceed the accumulated bonus, `fuzzy_match` returns `true` with exactly
base 100 + 50 start bonus + 30 word-boundary bonus − 2 × length surplus;
in particular `fuzzy_match("chrome", "Google Chrome") = (true, 116)`. -/
theorem claim7_contain_formula :
    (∀ q t : List Char, q ≠ [] →
        substringOf (toLowercase q) (toLowercase t) = true →
        ((toLowercase t).length - (toLowercase q).length) * 2
          ≤ containBonus (toLowercase q) (toLowercase t) →
        fuzzy_match q t
          = (true, containBonus (toLowercase q) (toLowercase t)
              - ((toLowercase t).length - (toLowercase q).length) * 2)) ∧
    fuzzy_match "chrome".data "Google Chrome".data = (true, 116) := by
  constructor
  · intro q t hq hsub hsm
    rw [fuzzy_match_contain hq hsub,
      calculate_contain_score_eq (substringOf_length hsub) hsm]
  · decide

/-- C7, witness: the formula applied at the spec's scenario. -/
theorem claim7_witness :
    "chrome".data ≠ [] ∧
    substringOf (toLowercase "chrome".data)
      (toLowercase "Google Chrome".data) = true ∧
    ((toLowercase "Google Chrome".data).length
        - (toLowercase "chrome".data).length) * 2
      ≤ containBonus (toLowercase "chrome".data)
          (toLowercase "Google Chrome".data) ∧
    fuzzy_match "chrome".data "Google Chrome".data
      = (true, containBonus (toLowercase "chrome".data)
            (toLowercase "Google Chrome".data)
          - ((toLowercase "Google Chrome".data).length
            - (toLowercase "chrome".data).length) * 2) :=
  ⟨by decide, by decide, by decide,
   claim7_contain_formula.1 "chrome".data "Google Chrome".data (by decide)
     (by decide) (by decide)⟩

/-- C10, witness: two providers share id `dup` with observably different
execute outcomes; dispatch picks the first. -/
theorem claim10_witness :
    ownerMatches pDupFirst rDup = true ∧
    ownerMatches pDupSecond rDup = true ∧
    PluginManager.executeT [pDupFirst, pDupSecond] rDup
      = (pDupFirst.execute rDup, some 0) ∧
    pDupFirst.execute rDup ≠ pDupSecond.execute rDup :=
  ⟨by decide, by decide,
   claim10_execute_first_owner [] pDupFirst [] pDupSecond [] rDup
     (by decide) (by decide) (by simp),
   by simp [pDupFirst, pDupSecond, mkPlugin]⟩

end Werun
